import Mathlib

/- Verification of chatBruti's semantic retrieval core: a shallow embedding of
   `app/modules/semantic_search.py` (class `SemanticSearch`) and of
   `app/modules/scraper.py` (class `TextChunker`).

   Modelling conventions:
   * Python `str` values are modelled as `List Char` (`String.data` at the
     boundary).  `str.lower` is modelled per character by `Char.toLower`
     (exact on ASCII), `re.findall(r'\w+', ...)` by maximal runs of
     word characters, where a word character is an ASCII alphanumeric,
     an underscore, or any non-ASCII character (exact on the French
     letters that occur in the corpus), and `str.strip()` by stripping
     the ASCII whitespace characters.
   * A `collections.Counter` is an association list with pairwise distinct
     keys in first-insertion order (`counterOf` only builds such lists).
   * Python floats are modelled by exact arithmetic.  Every score the
     search loop manipulates has the shape `k*0.18 + num/sqrt(den2)` with
     `k`, `num`, `den2` naturals and `den2 > 0`, so all the comparisons
     performed by `SemanticSearch.search` are decided exactly with
     rational arithmetic on squares; `round(score, 3)` is modelled by
     `Score.conf3` (round half to even at three decimals). -/

namespace ChatBruti

abbrev Token := List Char

/-- A term vector: `collections.Counter` as an association list. -/
abbrev TermVec := List (Token × Nat)

/-- The whitespace characters stripped by Python's `str.strip()`
(ASCII part: space, tab, newline, carriage return, vertical tab, form feed). -/
def isPyWs (c : Char) : Bool :=
  c = ' ' || c = '\t' || c = '\n' || c = '\r' || c = '\x0b' || c = '\x0c'

/-- Python `str.strip()`: drop whitespace from both ends. -/
def pyStrip (s : List Char) : List Char :=
  ((s.dropWhile isPyWs).reverse.dropWhile isPyWs).reverse

/-- `text.lower()`, applied per character (exact on ASCII). -/
def lowerChars (s : List Char) : List Char := s.map Char.toLower

/-- A character matched by `\w` in `re.findall(r'\w+', text)`:
ASCII alphanumerics, underscore, and (approximating Unicode word
characters) every non-ASCII character. -/
def isWordChar (c : Char) : Bool := c.isAlphanum || c = '_' || 127 < c.toNat

/-- Helper for `findallWordRuns`: `cur` holds the current (reversed) run. -/
def tokenizeAux : List Char → List Char → List Token
  | [], cur => if cur.isEmpty then [] else [cur.reverse]
  | c :: rest, cur =>
    if isWordChar c then tokenizeAux rest (c :: cur)
    else if cur.isEmpty then tokenizeAux rest []
    else cur.reverse :: tokenizeAux rest []

/-- `re.findall(r'\w+', text)`: the maximal runs of word characters. -/
def findallWordRuns (s : List Char) : List Token := tokenizeAux s []

/-- The stopword set of `SemanticSearch.__init__`. -/
def stopwordsList : List String :=
  ["le", "la", "les", "de", "du", "des", "un", "une", "et", "ou", "à", "au", "aux",
   "en", "dans", "sur", "pour", "par", "avec", "sans", "sous", "chez", "ce", "cette",
   "ces", "son", "sa", "ses", "mon", "ma", "mes", "ton", "ta", "tes", "je", "tu",
   "il", "elle", "nous", "vous", "ils", "elles", "qui", "que", "quoi", "dont", "où",
   "quand", "comment", "mais", "est", "sont", "pas", "plus", "très"]

def stopwords : List Token := stopwordsList.map String.data

/-- One step of `collections.Counter` construction: count one word. -/
def addWord (m : TermVec) (w : Token) : TermVec :=
  match m with
  | [] => [(w, 1)]
  | (k, n) :: rest => if k == w then (k, n + 1) :: rest else (k, n) :: addWord rest w

/-- `collections.Counter(words)`. -/
def counterOf (ws : List Token) : TermVec := ws.foldl addWord []

/-- `SemanticSearch._clean_and_vectorize`: lower-case, extract word runs,
drop stopwords and tokens of length ≤ 2, count occurrences. -/
def cleanAndVectorize (text : List Char) : TermVec :=
  counterOf ((findallWordRuns (lowerChars text)).filter
    (fun w => !(stopwords.contains w) && decide (2 < w.length)))

def vkeys (v : TermVec) : List Token := v.map Prod.fst

/-- `set(vec1) & set(vec2)` as the keys of `v` that also occur in `w`. -/
def commonKeys (v w : TermVec) : List Token :=
  (vkeys v).filter (fun t => (vkeys w).contains t)

/-- `vec[t]` (0 when absent, like `Counter.__getitem__`). -/
def getCount (v : TermVec) (t : Token) : Nat :=
  (v.find? (fun p => p.1 == t)).elim 0 Prod.snd

/-- `sum(x * x for x in vec.values())`. -/
def sumSq (v : TermVec) : Nat := (v.map (fun p => p.2 * p.2)).sum

/-- The outcome of `SemanticSearch._cosine_similarity`, keeping the control
flow explicit.  `noCommon` and `zeroDenom` are the two `return 0.0` paths
(short-circuit before the division, and the `denominator != 0` guard);
`ratio num den2` is the division path, whose exact value is
`num / sqrt den2` (the float code divides by `sqrt s1 * sqrt s2`, which is
zero exactly when `s1 * s2 = 0` since the sums of squares are integers). -/
inductive CosResult where
  | noCommon : CosResult
  | zeroDenom (num : Nat) : CosResult
  | ratio (num den2 : Nat) : CosResult
deriving DecidableEq

/-- `SemanticSearch._cosine_similarity`. -/
def cosineSimilarity (v w : TermVec) : CosResult :=
  if commonKeys v w = [] then .noCommon
  else
    let num := ((commonKeys v w).map (fun t => getCount v t * getCount w t)).sum
    let d2 := sumSq v * sumSq w
    if d2 = 0 then .zeroDenom num else .ratio num d2

/-- The similarity value as a formal radical `num / sqrt den2`
(both `return 0.0` paths give `0 / sqrt 1 = 0`). -/
def CosResult.rad : CosResult → Nat × Nat
  | .ratio n d => (n, d)
  | _ => (0, 1)

/-- Whether the result is one of the exact `return 0.0` paths. -/
def CosResult.isExactZero : CosResult → Bool
  | .ratio _ _ => false
  | _ => true

/-- A chunk record as consumed by `SemanticSearch.search`: a dict with a
mandatory `"text"` entry; `chunk_id`, `source_url`, `source_title` are read
with `.get` and a default, hence optional. -/
structure SChunk where
  text : String
  chunk_id : Option Int := none
  source_url : Option String := none
  source_title : Option String := none
deriving DecidableEq

/-- The exact value of a float score of the search loop:
`k * 0.18 + num / sqrt den2`. -/
structure Score where
  k : Nat
  num : Nat
  den2 : Nat
deriving DecidableEq

/-- The dict returned by `SemanticSearch.search` (hit or fallback). -/
structure SearchResult where
  context : List Char
  confidence : Score
  chunk_id : Int
  source_url : String
  source_title : String
  found : Bool
deriving DecidableEq

/-- The loop state `(best_index, best_chunk, best cosine as num/sqrt den2)`;
`best_score` is `k * 0.18 + num / sqrt den2` where `k` counts the matched
boost keywords (the boost is the same for every chunk of one query). -/
structure Best where
  idx : Nat
  chunk : SChunk
  num : Nat
  den2 : Nat
deriving DecidableEq

/-- `r < s` for radicals `r.1 / sqrt r.2`, `s.1 / sqrt s.2` (valid reading
whenever the `den2` components are positive). -/
abbrev radLt (r s : Nat × Nat) : Prop := r.1 ^ 2 * s.2 < s.1 ^ 2 * r.2

/-- `r ≤ s` for radicals. -/
abbrev radLE (r s : Nat × Nat) : Prop := r.1 ^ 2 * s.2 ≤ s.1 ^ 2 * r.2

/-- One iteration of the `for i, chunk_vector in enumerate(...)` loop:
update on `score > best_score` (strict).  Against the initial
`best_score = 0.0` the condition is `0 < k ∨ 0 < num`; between two chunk
scores the common boost `k * 0.18` cancels and the comparison is the exact
radical comparison `num_i / sqrt den2_i > num_b / sqrt den2_b`. -/
def bestStep (k : Nat) (best : Option Best) (i : Nat) (c : SChunk) (r : Nat × Nat) :
    Option Best :=
  match best with
  | none => if 0 < k ∨ 0 < r.1 then some ⟨i, c, r.1, r.2⟩ else none
  | some b => if b.num ^ 2 * r.2 < r.1 ^ 2 * b.den2 then some ⟨i, c, r.1, r.2⟩ else some b

/-- The whole scoring loop of `SemanticSearch.search`. -/
def bestLoop (k : Nat) : List (SChunk × Nat × Nat) → Nat → Option Best → Option Best
  | [], _, best => best
  | (c, r) :: rest, i, best => bestLoop k rest (i + 1) (bestStep k best i c r)

/-- `best_score > threshold` where `best_score = k * 0.18 + n / sqrt d`
(`d > 0`): decided exactly on squares. -/
def scoreGtQ (k n d : Nat) (t : ℚ) : Bool :=
  let r : ℚ := t - 9 * k / 50
  if r < 0 then true else decide (r ^ 2 * d < (n : ℚ) ^ 2)

def ellipsis : List Char := ['.', '.', '.']

/-- `s.rsplit(' ', 1)[0]`: everything before the last space, or `s`
itself when `s` has no space. -/
def beforeLastSpace (l : List Char) : List Char :=
  if l.contains ' ' then ((l.reverse.dropWhile (fun c => c ≠ ' ')).tail).reverse else l

/-- The truncation step of `SemanticSearch.search`:
`context[:mcl].rsplit(' ', 1)[0] + "..."` when `len(context) > mcl`. -/
def truncateContext (mcl : Nat) (s : List Char) : List Char :=
  if mcl < s.length then beforeLastSpace (s.take mcl) ++ ellipsis else s

/-- The hard-coded default context of the fallback branch. -/
def defaultContext : String :=
  "La démarche NIRD promeut un numérique Inclusif, Responsable et Durable dans les établissements scolaires via Linux, le reconditionnement et les logiciels libres."

/-- The fallback dict (`found = False`, `chunk_id = -1`, confidence `0.0`). -/
def fallbackResult : SearchResult :=
  { context := defaultContext.data
    confidence := ⟨0, 0, 1⟩
    chunk_id := -1
    source_url := "https://nird.forge.apps.education.fr/"
    source_title := "Accueil NIRD"
    found := false }

/-- Python's substring test `pat in s`. -/
def isSubstring (pat : List Char) : List Char → Bool
  | [] => pat.isEmpty
  | c :: rest => pat.isPrefixOf (c :: rest) || isSubstring pat rest

/-- The number of boost keywords that occur as a substring of the
lower-cased query (`if keyword in query_lower` — each adds `0.18`, once per
keyword, for every chunk alike). -/
def kCount (bk : List String) (query : String) : Nat :=
  (bk.filter (fun kw => isSubstring kw.data (lowerChars query.data))).length

/-- The precomputed cosine radicals of the query against every indexed
chunk vector, in index order (`self.vectors` is `chunks` mapped through
`_clean_and_vectorize`). -/
def radsOf (chunks : List SChunk) (query : String) : List (Nat × Nat) :=
  chunks.map (fun c =>
    (cosineSimilarity (cleanAndVectorize query.data) (cleanAndVectorize c.text.data)).rad)

/-- The hit dict built from the winning chunk. -/
def mkHit (k : Nat) (mcl : Nat) (b : Best) : SearchResult :=
  { context := truncateContext mcl (pyStrip b.chunk.text.data)
    confidence := ⟨k, b.num, b.den2⟩
    chunk_id := b.chunk.chunk_id.getD (b.idx : Int)
    source_url := b.chunk.source_url.getD ""
    source_title := b.chunk.source_title.getD ""
    found := true }

/-- `SemanticSearch.search` over an index built from `chunks` with
boost keywords `bk`.  Returns `none` for a blank query (the `return None`
path); otherwise either the best-chunk hit or the fallback dict. -/
def search (chunks : List SChunk) (bk : List String) (query : String)
    (threshold : ℚ) (mcl : Nat) : Option SearchResult :=
  if pyStrip query.data = [] then none
  else
    match bestLoop (kCount bk query) (chunks.zip (radsOf chunks query)) 0 none with
    | some b =>
      if scoreGtQ (kCount bk query) b.num b.den2 threshold then
        some (mkHit (kCount bk query) mcl b)
      else some fallbackResult
    | none => some fallbackResult

/-- Fuel-based integer square root (digit-by-digit in base 4); the fuel
only bounds the recursion depth, `isqrt n = ⌊√n⌋` (see `isqrt_spec`). -/
def isqrtAux : Nat → Nat → Nat
  | 0, _ => 0
  | fuel + 1, n =>
    if n < 2 then n
    else
      let r := 2 * isqrtAux fuel (n / 4)
      if (r + 1) * (r + 1) ≤ n then r + 1 else r

def isqrt (n : Nat) : Nat := isqrtAux n n

/-- `⌊1000 * (k * 0.18 + num / sqrt den2)⌋` for a score (`den2 > 0`):
`1000 * num / sqrt d = sqrt (10^6 * num^2 * d) / d`, and the floor of a
square root quotient is computed with the integer square root and natural
division. -/
def Score.floor1000 (s : Score) : Nat :=
  180 * s.k + isqrt (1000000 * s.num ^ 2 * s.den2) / s.den2

/-- `round(score, 3)` on the exact score value: the nearest multiple of
1/1000, half to even.  `m = ⌊1000 x⌋`; the fractional part is compared
with 1/2 by comparing `2000 x` with `2m + 1`, i.e. the radical part
`2000 num / sqrt den2` with `c = 2m + 1 - 360 k ≥ 1`, decided on squares. -/
def Score.conf3 (s : Score) : ℚ :=
  let m := s.floor1000
  let c : Int := 2 * m + 1 - 360 * s.k
  if c ^ 2 * s.den2 < (2000 * s.num : Int) ^ 2 then ((m : ℚ) + 1) / 1000
  else if (2000 * s.num : Int) ^ 2 = c ^ 2 * s.den2 then
    if m % 2 = 0 then (m : ℚ) / 1000 else ((m : ℚ) + 1) / 1000
  else (m : ℚ) / 1000

/-- A scraped document as consumed by `TextChunker.chunk_documents`. -/
structure Doc where
  url : String
  title : String
  text : String
deriving DecidableEq

/-- A chunk record produced by `TextChunker.chunk_text`. -/
structure Chunk where
  chunk_id : Nat
  text : List Char
  token_count : Nat
  source_url : String
  source_title : String
deriving DecidableEq

/-- The truncation shape asserted by the specification (defined from the
spec's words, to be compared with the code's `truncateContext`): the
context is the chunk text cut at some index `j` at or before the limit,
with the cut adjacent to a whitespace character, and the ellipsis marker
appended. -/
def specWhitespaceCut (s ctx : List Char) (mcl : Nat) : Bool :=
  (List.range (mcl + 1)).any (fun j =>
    ctx == s.take j ++ ellipsis &&
      (isPyWs (s.getD j 'x') || (decide (0 < j) && isPyWs (s.getD (j - 1) 'x'))))

/-- `TextChunker.count_tokens` on the fallback path
(tiktoken unavailable): `len(text) // 4`.  The chunker below is
parametric in the token counter, covering the tiktoken path as well. -/
def countTokensApprox (s : List Char) : Nat := s.length / 4

def sepNN : List Char := ['\n', '\n']

/-- Python `text.split("\n\n")`: cut at each leftmost, non-overlapping
occurrence of the two-character separator. -/
def splitParas : List Char → List (List Char)
  | [] => [[]]
  | [c] => [[c]]
  | c :: d :: rest =>
    if c = '\n' ∧ d = '\n' then [] :: splitParas rest
    else
      match splitParas (d :: rest) with
      | [] => [[c]]
      | p :: ps => (c :: p) :: ps

/-- Whether a character list contains the two-newline separator
(two consecutive `'\n'`) as a sublist. -/
def hasNN : List Char → Bool
  | [] => false
  | [_] => false
  | c :: d :: rest => (c = '\n' && d = '\n') || hasNN (d :: rest)

/-- `"\n\n".join(B)`: the paragraphs of one chunk, separated by the
blank-line separator (the shape of a chunk's stripped text). -/
def joinSep : List (List Char) → List Char
  | [] => []
  | [p] => p
  | p :: ps => p ++ sepNN ++ joinSep ps

/-- The running buffer `current_chunk` after accumulating the paragraphs
`B`: each paragraph followed by the separator. -/
def glue : List (List Char) → List Char
  | [] => []
  | p :: ps => p ++ sepNN ++ glue ps

/-- The paragraph-accumulation loop of `TextChunker.chunk_text`:
`cur` is `current_chunk`, `cid` is `chunk_id`. -/
def chunkLoop (cs : Nat) (tc : List Char → Nat) (u t : String) :
    List (List Char) → List Char → Nat → List Chunk
  | [], cur, cid => if cur = [] then [] else [⟨cid, pyStrip cur, tc cur, u, t⟩]
  | p :: ps, cur, cid =>
    if pyStrip p = [] then chunkLoop cs tc u t ps cur cid
    else if cur.length + p.length ≤ cs then chunkLoop cs tc u t ps (cur ++ p ++ sepNN) cid
    else if cur = [] then chunkLoop cs tc u t ps (p ++ sepNN) cid
    else ⟨cid, pyStrip cur, tc cur, u, t⟩ :: chunkLoop cs tc u t ps (p ++ sepNN) (cid + 1)

/-- `TextChunker.chunk_text` with chunk size `cs` and token counter `tc`. -/
def chunk_text (cs : Nat) (tc : List Char → Nat) (text : List Char) (u t : String) :
    List Chunk :=
  if text = [] then [] else chunkLoop cs tc u t (splitParas text) [] 0

/-- `TextChunker.chunk_documents`. -/
def chunk_documents (cs : Nat) (tc : List Char → Nat) (docs : List Doc) : List Chunk :=
  (docs.map (fun d => chunk_text cs tc d.text.data d.url d.title)).flatten

/-! ### Helper lemmas -/

theorem pyStrip_eq_nil_of_ws {s : List Char} (h : ∀ c ∈ s, isPyWs c) : pyStrip s = [] := by
  unfold pyStrip
  rw [List.dropWhile_eq_nil_iff.2 h]
  simp

theorem cosine_noCommon {v w : TermVec} (h : commonKeys v w = []) :
    cosineSimilarity v w = CosResult.noCommon := by
  simp [cosineSimilarity, h]

theorem cosine_rad_den_pos (v w : TermVec) : 0 < ((cosineSimilarity v w).rad).2 := by
  unfold cosineSimilarity
  split
  · simp [CosResult.rad]
  · dsimp only
    split
    · simp [CosResult.rad]
    · rename_i hd
      simp only [CosResult.rad]
      omega

theorem search_eval_hit (chunks : List SChunk) (bk : List String) (q : String) (t : ℚ)
    (mcl : Nat) (b : Best) (h1 : ¬ pyStrip q.data = [])
    (hb : bestLoop (kCount bk q) (chunks.zip (radsOf chunks q)) 0 none = some b)
    (hs : scoreGtQ (kCount bk q) b.num b.den2 t = true) :
    search chunks bk q t mcl = some (mkHit (kCount bk q) mcl b) := by
  unfold search
  rw [if_neg h1, hb]
  simp [hs]

theorem search_eval_fallback (chunks : List SChunk) (bk : List String) (q : String) (t : ℚ)
    (mcl : Nat) (b : Best) (h1 : ¬ pyStrip q.data = [])
    (hb : bestLoop (kCount bk q) (chunks.zip (radsOf chunks q)) 0 none = some b)
    (hs : scoreGtQ (kCount bk q) b.num b.den2 t = false) :
    search chunks bk q t mcl = some fallbackResult := by
  unfold search
  rw [if_neg h1, hb]
  simp [hs]

/-- Inversion for a found search result: it comes from the loop's best
candidate, which cleared the threshold, and it is the hit dict built from
that candidate. -/
theorem search_found_elim (chunks : List SChunk) (bk : List String) (query : String)
    (t : ℚ) (mcl : Nat) (r : SearchResult)
    (hr : search chunks bk query t mcl = some r) (hf : r.found = true) :
    ∃ b : Best,
      bestLoop (kCount bk query) (chunks.zip (radsOf chunks query)) 0 none = some b ∧
      scoreGtQ (kCount bk query) b.num b.den2 t = true ∧
      r = mkHit (kCount bk query) mcl b := by
  unfold search at hr
  by_cases hq : pyStrip query.data = []
  · rw [if_pos hq] at hr
    exact absurd hr (by simp)
  rw [if_neg hq] at hr
  cases hloop : bestLoop (kCount bk query) (chunks.zip (radsOf chunks query)) 0 none with
  | none =>
    rw [hloop] at hr
    dsimp only at hr
    injection hr with hr
    rw [← hr] at hf
    exact absurd hf (by decide)
  | some b =>
    rw [hloop] at hr
    dsimp only at hr
    by_cases hs : scoreGtQ (kCount bk query) b.num b.den2 t = true
    · rw [if_pos hs] at hr
      injection hr with hr
      exact ⟨b, rfl, hs, hr.symm⟩
    · rw [if_neg hs] at hr
      injection hr with hr
      rw [← hr] at hf
      exact absurd hf (by decide)

theorem zip_rads_den_pos (chunks : List SChunk) (query : String) :
    ∀ q ∈ chunks.zip (radsOf chunks query), 0 < q.2.2 := by
  intro q hq'
  have h2 := (List.of_mem_zip hq').2
  unfold radsOf at h2
  rcases List.mem_map.1 h2 with ⟨c, hc, heq⟩
  rw [← heq]
  exact cosine_rad_den_pos _ _

/-! ### C4 — blank query returns the absent result -/

/-- C4: for every corpus, boost-keyword list, threshold and
`max_context_length`, if the query is empty or consists only of whitespace
characters, `search` returns `none`: no chunk result and no fallback
result is produced. -/
theorem C4_blank_query_returns_none (chunks : List SChunk) (bk : List String)
    (query : String) (threshold : ℚ) (mcl : Nat)
    (h : ∀ c ∈ query.data, isPyWs c) :
    search chunks bk query threshold mcl = none := by
  unfold search
  rw [if_pos (pyStrip_eq_nil_of_ws h)]

/-- Witness for C4 at a concrete whitespace query. -/
theorem C4_blank_query_returns_none_witness :
    search [⟨"x", none, none, none⟩] ["x"] " \t " (12 / 100) 600 = none :=
  C4_blank_query_returns_none _ _ _ _ _ (by decide)

/-! ### C5 — cosine zero cases and the division guard -/

/-- C5: for every pair of term vectors, `_cosine_similarity` returns the
exact value `0.0` through the short-circuit branch whenever the vectors
share no token (before any division), its value is exactly `0.0` whenever
the norm denominator is zero, and the division branch is never taken with
a zero divisor (`ratio num den2` always has `den2 ≠ 0`). -/
theorem C5_cosine_zero_guard (v w : TermVec) :
    (commonKeys v w = [] → cosineSimilarity v w = CosResult.noCommon) ∧
    (sumSq v * sumSq w = 0 → (cosineSimilarity v w).isExactZero = true) ∧
    (∀ n d, cosineSimilarity v w = CosResult.ratio n d → d ≠ 0) := by
  refine ⟨fun h => by unfold cosineSimilarity; rw [if_pos h], fun h => ?_, fun n d h => ?_⟩
  · unfold cosineSimilarity
    split
    · rfl
    · rw [if_pos h]
      rfl
  · unfold cosineSimilarity at h
    split at h
    · simp at h
    · dsimp only at h
      split at h
      · simp at h
      · rename_i hd
        injection h with h1 h2
        exact h2 ▸ hd

/-- Witness for C5: concrete disjoint vectors take the short-circuit
branch, and a concrete division-branch result has a nonzero divisor. -/
theorem C5_cosine_zero_guard_witness :
    cosineSimilarity [(['a', 'b', 'c'], 1)] [(['x', 'y', 'z'], 2)] = CosResult.noCommon ∧
    (2 : Nat) ≠ 0 :=
  ⟨(C5_cosine_zero_guard _ _).1 (by decide),
   (C5_cosine_zero_guard [(['a', 'b', 'c'], 1)] [(['a', 'b', 'c'], 1), (['x', 'y', 'z'], 1)]).2.2
     1 2 (by decide)⟩

/-! ### C9 — chunk id numbering -/

theorem chunkLoop_ids (cs : Nat) (tc : List Char → Nat) (u t : String) :
    ∀ (ps : List (List Char)) (cur : List Char) (cid : Nat),
      (chunkLoop cs tc u t ps cur cid).map Chunk.chunk_id =
        List.range' cid (chunkLoop cs tc u t ps cur cid).length := by
  intro ps
  induction ps with
  | nil =>
    intro cur cid
    unfold chunkLoop
    split
    · rfl
    · rfl
  | cons p ps ih =>
    intro cur cid
    unfold chunkLoop
    split
    · exact ih cur cid
    · split
      · exact ih _ cid
      · split
        · exact ih _ cid
        · have h := ih (p ++ sepNN) (cid + 1)
          simp only [List.map_cons, List.length_cons, h, List.range'_succ]

/-- C9 counterexample: in one `chunk_documents` run over two documents,
the emitted chunks' `chunk_id`s are `[0, 0]` — not unique within the run
(the counter restarts at 0 for each document). -/
theorem C9_counterexample :
    (chunk_documents 1000 countTokensApprox
        [⟨"u1", "t1", "aaa"⟩, ⟨"u2", "t2", "bbb"⟩]).map Chunk.chunk_id = [0, 0] ∧
    ¬ ([0, 0] : List Nat).Nodup := by
  constructor
  · decide
  · decide

/-- C9 amended: `chunk_id`s are non-negative (the model uses `Nat`) and
are unique in emission order within one `chunk_text` call — they are
exactly `0, 1, ..., n-1` —, but across the documents of one
`chunk_documents` run the counter restarts at 0, so ids repeat. -/
theorem C9_amended_ids_per_document (cs : Nat) (tc : List Char → Nat)
    (text : List Char) (u t : String) :
    (chunk_text cs tc text u t).map Chunk.chunk_id =
      List.range (chunk_text cs tc text u t).length := by
  unfold chunk_text
  split
  · rfl
  · rw [List.range_eq_range']
    exact chunkLoop_ids cs tc u t _ [] 0

/-! ### C1 — the "linux" query against the one-chunk corpus -/

theorem isqrtAux_spec : ∀ (fuel n : Nat), n ≤ fuel →
    (isqrtAux fuel n) ^ 2 ≤ n ∧ n < (isqrtAux fuel n + 1) ^ 2 := by
  intro fuel
  induction fuel with
  | zero =>
    intro n hn
    interval_cases n
    simp [isqrtAux]
  | succ fuel ih =>
    intro n hn
    unfold isqrtAux
    by_cases h2 : n < 2
    · rw [if_pos h2]
      interval_cases n <;> simp
    · rw [if_neg h2]
      have hrec := ih (n / 4) (by omega)
      set s := isqrtAux fuel (n / 4) with hs
      have h1 : s ^ 2 ≤ n / 4 := hrec.1
      have h2' : n / 4 < (s + 1) ^ 2 := hrec.2
      have hl : 4 * (n / 4) ≤ n := by omega
      have hu : n < 4 * (n / 4) + 4 := by omega
      dsimp only
      split
      · constructor
        · rename_i hle; nlinarith
        · nlinarith
      · constructor
        · nlinarith
        · rename_i hgt
          push_neg at hgt
          nlinarith

theorem isqrt_spec (n : Nat) : (isqrt n) ^ 2 ≤ n ∧ n < (isqrt n + 1) ^ 2 :=
  isqrtAux_spec n n le_rfl

/-- C1 counterexample: with the corpus consisting of exactly the chunk
"linux reconditionnement durable" and `boost_keywords = ["linux"]`, the
query "linux" at threshold `0.9 < 1.0` returns the fallback result with
`found = false` (the best score is `1/√3 + 0.18 ≈ 0.757`, not `≥ 1`),
refuting the claim for this threshold. -/
theorem C1_counterexample :
    (9 / 10 : ℚ) < 1 ∧
    search [⟨"linux reconditionnement durable", none, none, none⟩] ["linux"] "linux"
        (9 / 10) 600 = some fallbackResult ∧
    fallbackResult.found = false := by
  refine ⟨by norm_num, ?_, rfl⟩
  have hb : bestLoop (kCount ["linux"] "linux")
      ([(⟨"linux reconditionnement durable", none, none, none⟩ : SChunk)].zip
        (radsOf [⟨"linux reconditionnement durable", none, none, none⟩] "linux")) 0 none =
      some ⟨0, ⟨"linux reconditionnement durable", none, none, none⟩, 1, 3⟩ := by decide
  have hs : scoreGtQ (kCount ["linux"] "linux") 1 3 (9 / 10) = false := by
    rw [show kCount ["linux"] "linux" = 1 from by decide]
    unfold scoreGtQ
    norm_num
  exact search_eval_fallback _ _ _ _ _ _ (by decide) hb hs

/-- C1 amended: on that corpus the score of the only chunk is exactly
`0.18 + 1/√3`; for every threshold strictly below it (the hypothesis
states `t < 9/50 + 1/√3` in decidable square form) the search returns
`found = true` with confidence `0.757 < 1.0` — not confidence `≥ 1.0`,
and for thresholds in `[0.18 + 1/√3, 1)` the fallback is returned
(see the counterexample). -/
theorem C1_amended (t : ℚ)
    (h : t < 9 / 50 ∨ (0 ≤ t - 9 / 50 ∧ (t - 9 / 50) ^ 2 * 3 < 1)) :
    search [⟨"linux reconditionnement durable", none, none, none⟩] ["linux"] "linux" t 600 =
      some { context := "linux reconditionnement durable".data
             confidence := ⟨1, 1, 3⟩
             chunk_id := 0
             source_url := ""
             source_title := ""
             found := true } ∧
    Score.conf3 ⟨1, 1, 3⟩ = 757 / 1000 ∧ (757 / 1000 : ℚ) < 1 := by
  have hconf : Score.conf3 ⟨1, 1, 3⟩ = 757 / 1000 := by
    have h1 : isqrt 3000000 = 1732 := by decide
    norm_num [Score.conf3, Score.floor1000, h1]
  have hs : scoreGtQ 1 1 3 t = true := by
    unfold scoreGtQ
    simp only [Nat.cast_one, Nat.cast_ofNat, mul_one, one_pow]
    rcases h with h | ⟨h0, h3⟩
    · rw [if_pos (by linarith)]
    · rw [if_neg (by linarith), decide_eq_true_eq]
      nlinarith
  have hb : bestLoop (kCount ["linux"] "linux")
      ([(⟨"linux reconditionnement durable", none, none, none⟩ : SChunk)].zip
        (radsOf [⟨"linux reconditionnement durable", none, none, none⟩] "linux")) 0 none =
      some ⟨0, ⟨"linux reconditionnement durable", none, none, none⟩, 1, 3⟩ := by decide
  refine ⟨?_, hconf, by norm_num⟩
  have he := search_eval_hit [⟨"linux reconditionnement durable", none, none, none⟩] ["linux"]
    "linux" t 600 ⟨0, ⟨"linux reconditionnement durable", none, none, none⟩, 1, 3⟩
    (by decide) hb (by rw [show kCount ["linux"] "linux" = 1 from by decide]; exact hs)
  rw [he]
  decide

/-- Witness for C1 amended at the concrete threshold `t = 1/2`. -/
theorem C1_amended_witness :
    search [⟨"linux reconditionnement durable", none, none, none⟩] ["linux"] "linux"
        (1 / 2) 600 =
      some { context := "linux reconditionnement durable".data
             confidence := ⟨1, 1, 3⟩
             chunk_id := 0
             source_url := ""
             source_title := ""
             found := true } ∧
    Score.conf3 ⟨1, 1, 3⟩ = 757 / 1000 ∧ (757 / 1000 : ℚ) < 1 :=
  C1_amended (1 / 2) (Or.inr (by norm_num))

/-! ### C7 — whitespace-only documents produce no chunks -/

theorem splitParas_sub : ∀ (l : List Char), ∀ p ∈ splitParas l, ∀ c ∈ p, c ∈ l := by
  intro l
  induction l using splitParas.induct with
  | case1 =>
    intro p hp c hc
    simp only [splitParas, List.mem_singleton] at hp
    subst hp
    simp at hc
  | case2 c' =>
    intro p hp c hc
    simp only [splitParas, List.mem_singleton] at hp
    subst hp
    simpa using hc
  | case3 c' d rest hnl ih =>
    obtain ⟨rfl, rfl⟩ := hnl
    intro p hp c hc
    rw [show splitParas ('\n' :: '\n' :: rest) = [] :: splitParas rest from by
      simp [splitParas]] at hp
    rcases List.mem_cons.1 hp with rfl | hp
    · simp at hc
    · have := ih p hp c hc
      simp [this]
  | case4 c' d rest hnl hsp ih =>
    intro p hp c hc
    rw [show splitParas (c' :: d :: rest) = [[c']] from by
      rw [splitParas.eq_def]
      simp only [if_neg hnl, hsp]] at hp
    simp only [List.mem_singleton] at hp
    subst hp
    simp only [List.mem_singleton] at hc
    simp [hc]
  | case5 c' d rest hnl p0 ps hsp ih =>
    intro p hp c hc
    rw [show splitParas (c' :: d :: rest) = (c' :: p0) :: ps from by
      rw [splitParas.eq_def]
      simp only [if_neg hnl, hsp]] at hp
    rcases List.mem_cons.1 hp with rfl | hp
    · rcases List.mem_cons.1 hc with rfl | hc
      · simp
      · have := ih p0 (by rw [hsp]; exact List.mem_cons_self _ _) c hc
        simp [this]
    · have := ih p (by rw [hsp]; exact List.mem_cons_of_mem _ hp) c hc
      simp [this]

theorem chunkLoop_all_blank (cs : Nat) (tc : List Char → Nat) (u t : String) :
    ∀ (ps : List (List Char)), (∀ p ∈ ps, pyStrip p = []) → ∀ cid,
      chunkLoop cs tc u t ps [] cid = [] := by
  intro ps
  induction ps with
  | nil => intro _ cid; simp [chunkLoop]
  | cons p ps ih =>
    intro h cid
    unfold chunkLoop
    rw [if_pos (h p (List.mem_cons_self _ _))]
    exact ih (fun q hq => h q (List.mem_cons_of_mem _ hq)) cid

/-- C7: a document whose text is empty or consists only of whitespace
characters (in particular, whitespace paragraphs separated by blank lines)
yields an empty chunk list from `chunk_text`, and `chunk_documents` over a
sequence of such documents yields zero chunks. -/
theorem C7_whitespace_docs_no_chunks :
    (∀ (cs : Nat) (tc : List Char → Nat) (text : List Char) (u t : String),
        (∀ c ∈ text, isPyWs c) → chunk_text cs tc text u t = []) ∧
    (∀ (cs : Nat) (tc : List Char → Nat) (docs : List Doc),
        (∀ d ∈ docs, ∀ c ∈ d.text.data, isPyWs c) → chunk_documents cs tc docs = []) := by
  have h1 : ∀ (cs : Nat) (tc : List Char → Nat) (text : List Char) (u t : String),
      (∀ c ∈ text, isPyWs c) → chunk_text cs tc text u t = [] := by
    intro cs tc text u t h
    unfold chunk_text
    split
    · rfl
    · exact chunkLoop_all_blank cs tc u t _
        (fun p hp => pyStrip_eq_nil_of_ws (fun c hc => h c (splitParas_sub text p hp c hc))) 0
  refine ⟨h1, fun cs tc docs h => ?_⟩
  unfold chunk_documents
  rw [List.flatten_eq_nil_iff]
  intro l hl
  rcases List.mem_map.1 hl with ⟨d, hd, rfl⟩
  exact h1 cs tc _ _ _ (h d hd)

/-- Witness for C7 on a concrete whitespace document. -/
theorem C7_whitespace_docs_no_chunks_witness :
    chunk_text 1000 countTokensApprox " \n\n \n  ".data "u" "t" = [] ∧
    chunk_documents 1000 countTokensApprox [⟨"u", "t", " \n\n \n  "⟩] = [] :=
  ⟨C7_whitespace_docs_no_chunks.1 1000 countTokensApprox _ "u" "t" (by decide),
   C7_whitespace_docs_no_chunks.2 1000 countTokensApprox _ (by decide)⟩

/-! ### C10 — pure-boost queries select the first chunk -/

theorem bestLoop_keep (k : Nat) :
    ∀ (ps : List (SChunk × Nat × Nat)), (∀ q ∈ ps, q.2 = ((0 : Nat), (1 : Nat))) →
      ∀ (i : Nat) (b : Best), bestLoop k ps i (some b) = some b := by
  intro ps
  induction ps with
  | nil => intro _ i b; rfl
  | cons q ps ih =>
    intro h i b
    obtain ⟨c, r⟩ := q
    have hr : r = ((0 : Nat), (1 : Nat)) := h (c, r) (List.mem_cons_self _ _)
    subst hr
    unfold bestLoop
    rw [show bestStep k (some b) i c (0, 1) = some b from by simp [bestStep]]
    exact ih (fun q hq => h q (List.mem_cons_of_mem _ hq)) (i + 1) b

theorem isqrt_zero : isqrt 0 = 0 := rfl

theorem conf3_pure_boost (k : Nat) : Score.conf3 ⟨k, 0, 1⟩ = 9 * k / 50 := by
  unfold Score.conf3 Score.floor1000
  norm_num [isqrt_zero]
  rw [show (2 * (180 * (k : Int)) + 1 - 360 * (k : Int)) = 1 from by ring]
  norm_num
  ring

/-- C10: for a non-empty index and a non-blank query containing at least
one boost keyword (as a substring of its lower-cased form), if the query
vector shares no token with any chunk vector, then every candidate's
radical score is the same `(0, 1)` (the boost alone, applied identically
to every chunk, makes every score equal and positive), and whenever the
boost total `0.18 * k` exceeds the threshold, `search` returns
`found = true` for the first chunk in index order, with confidence equal
to the boost total after rounding to 3 decimals — not the fallback. -/
theorem C10_pure_boost_first_chunk (chunks : List SChunk) (bk : List String)
    (query : String) (t : ℚ) (mcl : Nat) (hne : chunks ≠ [])
    (hq : ¬ pyStrip query.data = [])
    (hk : 0 < kCount bk query)
    (hcos : ∀ c ∈ chunks,
      commonKeys (cleanAndVectorize query.data) (cleanAndVectorize c.text.data) = [])
    (ht : t < 9 * kCount bk query / 50) :
    radsOf chunks query = List.replicate chunks.length ((0 : Nat), (1 : Nat)) ∧
    ∃ r, search chunks bk query t mcl = some r ∧ r.found = true ∧
      r.chunk_id = (chunks.head hne).chunk_id.getD 0 ∧
      r.source_url = (chunks.head hne).source_url.getD "" ∧
      r.source_title = (chunks.head hne).source_title.getD "" ∧
      r.confidence = ⟨kCount bk query, 0, 1⟩ ∧
      Score.conf3 r.confidence = 9 * kCount bk query / 50 := by
  have hrads : radsOf chunks query = List.replicate chunks.length ((0 : Nat), (1 : Nat)) := by
    rw [List.eq_replicate_iff]
    refine ⟨by simp [radsOf], fun b hb => ?_⟩
    rcases List.mem_map.1 hb with ⟨c, hc, rfl⟩
    rw [cosine_noCommon (hcos c hc)]
    rfl
  refine ⟨hrads, ?_⟩
  obtain ⟨c0, rest, rfl⟩ : ∃ c0 rest, chunks = c0 :: rest := by
    cases chunks with
    | nil => exact absurd rfl hne
    | cons a l => exact ⟨a, l, rfl⟩
  have hzip : (c0 :: rest).zip (radsOf (c0 :: rest) query) =
      (c0, ((0 : Nat), (1 : Nat))) :: rest.zip (List.replicate rest.length ((0 : Nat), (1 : Nat))) := by
    rw [hrads]
    simp [List.replicate_succ]
  have hb : bestLoop (kCount bk query) ((c0 :: rest).zip (radsOf (c0 :: rest) query)) 0 none =
      some ⟨0, c0, 0, 1⟩ := by
    rw [hzip]
    unfold bestLoop
    rw [show bestStep (kCount bk query) none 0 c0 (0, 1) = some ⟨0, c0, 0, 1⟩ from by
      simp [bestStep, hk]]
    exact bestLoop_keep _ _ (fun q hq => (List.of_mem_zip hq).2 |> List.eq_of_mem_replicate) 1 _
  have hs : scoreGtQ (kCount bk query) 0 1 t = true := by
    unfold scoreGtQ
    rw [if_pos (by linarith)]
  refine ⟨mkHit (kCount bk query) mcl ⟨0, c0, 0, 1⟩,
    search_eval_hit _ _ _ _ _ _ hq hb hs, rfl, rfl, rfl, rfl, rfl, conf3_pure_boost _⟩

/-- Witness for C10: a concrete corpus sharing no token with the query
"xyz", boosted by the keyword "xyz". -/
theorem C10_pure_boost_first_chunk_witness :
    radsOf [⟨"aaa bbb", some 4, none, none⟩, ⟨"ccc", none, none, none⟩] "xyz" =
      List.replicate 2 ((0 : Nat), (1 : Nat)) ∧
    ∃ r, search [⟨"aaa bbb", some 4, none, none⟩, ⟨"ccc", none, none, none⟩] ["xyz"] "xyz"
        (1 / 10) 600 = some r ∧ r.found = true ∧
      r.chunk_id = (4 : Int) ∧ r.source_url = "" ∧ r.source_title = "" ∧
      r.confidence = ⟨1, 0, 1⟩ ∧ Score.conf3 r.confidence = 9 * 1 / 50 := by
  have h := C10_pure_boost_first_chunk
    [⟨"aaa bbb", some 4, none, none⟩, ⟨"ccc", none, none, none⟩] ["xyz"] "xyz" (1 / 10) 600
    (by decide) (by decide) (by decide) (by decide)
    (by rw [show kCount ["xyz"] "xyz" = 1 from by decide]; norm_num)
  rw [show kCount ["xyz"] "xyz" = 1 from by decide] at h
  exact h

/-! ### C2 — strict update, first index wins ties -/

theorem radLt_trans {a b c : Nat × Nat} (h1 : radLt a b) (h2 : radLt b c) : radLt a c := by
  unfold radLt at h1 h2 ⊢
  rcases Nat.eq_zero_or_pos b.1 with hb | hb
  · rw [hb] at h1
    simp at h1
  rcases Nat.eq_zero_or_pos b.2 with hb2 | hb2
  · rw [hb2] at h2
    simp at h2
  have h3 : (a.1 ^ 2 * b.2) * (b.1 ^ 2 * c.2) < (b.1 ^ 2 * a.2) * (c.1 ^ 2 * b.2) :=
    mul_lt_mul'' h1 h2 (Nat.zero_le _) (Nat.zero_le _)
  have e1 : (a.1 ^ 2 * b.2) * (b.1 ^ 2 * c.2) = (b.1 ^ 2 * b.2) * (a.1 ^ 2 * c.2) := by ring
  have e2 : (b.1 ^ 2 * a.2) * (c.1 ^ 2 * b.2) = (b.1 ^ 2 * b.2) * (c.1 ^ 2 * a.2) := by ring
  rw [e1, e2] at h3
  exact Nat.lt_of_mul_lt_mul_left h3

theorem radLE_radLt_trans {a b c : Nat × Nat} (ha : 0 < a.2)
    (h1 : radLE a b) (h2 : radLt b c) : radLt a c := by
  obtain ⟨a1, a2⟩ := a
  obtain ⟨b1, b2⟩ := b
  obtain ⟨c1, c2⟩ := c
  simp only [radLE, radLt] at h1 h2 ⊢
  dsimp only at h1 h2 ha ⊢
  have hcb : 0 < c1 ^ 2 * b2 := Nat.lt_of_le_of_lt (Nat.zero_le _) h2
  have hc1 : 0 < c1 ^ 2 := by
    rcases Nat.eq_zero_or_pos (c1 ^ 2) with h | h
    · rw [h, Nat.zero_mul] at hcb
      exact absurd hcb (Nat.lt_irrefl _)
    · exact h
  rcases Nat.eq_zero_or_pos (b1 ^ 2) with hb1 | hb1
  · have ha1 : a1 ^ 2 * b2 = 0 := by
      rw [hb1, Nat.zero_mul] at h1
      omega
    have hb2 : 0 < b2 := by
      rcases Nat.eq_zero_or_pos b2 with h | h
      · rw [h, Nat.mul_zero] at hcb
        exact absurd hcb (Nat.lt_irrefl _)
      · exact h
    have ha10 : a1 ^ 2 = 0 := by
      rcases Nat.mul_eq_zero.1 ha1 with h | h
      · exact h
      · omega
    rw [ha10, Nat.zero_mul]
    exact Nat.mul_pos hc1 ha
  · have hba : 0 < b1 ^ 2 * a2 := Nat.mul_pos hb1 ha
    have h3 : (a1 ^ 2 * b2) * (b1 ^ 2 * c2) < (b1 ^ 2 * a2) * (c1 ^ 2 * b2) :=
      Nat.lt_of_le_of_lt (mul_le_mul_right' h1 _) (mul_lt_mul_of_pos_left h2 hba)
    have e1 : (a1 ^ 2 * b2) * (b1 ^ 2 * c2) = (b1 ^ 2 * b2) * (a1 ^ 2 * c2) := by ring
    have e2 : (b1 ^ 2 * a2) * (c1 ^ 2 * b2) = (b1 ^ 2 * b2) * (c1 ^ 2 * a2) := by ring
    rw [e1, e2] at h3
    exact Nat.lt_of_mul_lt_mul_left h3

/-- Full specification of the scoring loop: starting from index `i0` and
accumulator `b0`, if the loop returns `some b` then (i) `b`'s radical has a
positive denominator, (ii) no processed entry strictly beats `b`
(so `b` attains the maximum), (iii) every entry strictly before `b.idx` is
strictly below `b` (strict `>` update: the first index wins ties),
(iv) a result started from an empty accumulator has a positive score, and
(v) `b` is either the untouched accumulator or the entry at `b.idx`,
strictly better than the accumulator it displaced. -/
theorem bestLoop_spec (k : Nat) :
    ∀ (ps : List (SChunk × Nat × Nat)) (i0 : Nat) (b0 : Option Best) (b : Best),
      (∀ q ∈ ps, 0 < q.2.2) →
      (∀ x, b0 = some x → 0 < x.den2 ∧ x.idx < i0) →
      bestLoop k ps i0 b0 = some b →
      0 < b.den2 ∧
      (∀ (j : Nat) (q : SChunk × Nat × Nat), ps[j]? = some q → radLE q.2 (b.num, b.den2)) ∧
      (∀ (j : Nat) (q : SChunk × Nat × Nat),
        ps[j]? = some q → i0 + j < b.idx → radLt q.2 (b.num, b.den2)) ∧
      (b0 = none → 0 < k ∨ 0 < b.num) ∧
      ((b0 = some b ∧ b.idx < i0) ∨
        (i0 ≤ b.idx ∧ ps[b.idx - i0]? = some (b.chunk, b.num, b.den2) ∧
          ∀ x, b0 = some x → radLt (x.num, x.den2) (b.num, b.den2))) := by
  intro ps
  induction ps with
  | nil =>
    intro i0 b0 b hden hb0 hrun
    have hb : b0 = some b := hrun
    obtain ⟨h1, h2⟩ := hb0 b hb
    refine ⟨h1, by simp, by simp, ?_, Or.inl ⟨hb, h2⟩⟩
    intro hnone
    rw [hnone] at hb
    exact absurd hb (by simp)
  | cons q ps ih =>
    obtain ⟨c, r⟩ := q
    intro i0 b0 b hden hb0 hrun
    have hr2 : 0 < r.2 := hden (c, r) (List.mem_cons_self _ _)
    have hden' : ∀ q ∈ ps, 0 < q.2.2 := fun q hq => hden q (List.mem_cons_of_mem _ hq)
    rw [show bestLoop k ((c, r) :: ps) i0 b0
        = bestLoop k ps (i0 + 1) (bestStep k b0 i0 c r) from rfl] at hrun
    cases b0 with
    | none =>
      by_cases hcond : 0 < k ∨ 0 < r.1
      · -- first entry becomes the accumulator
        rw [show bestStep k none i0 c r = some ⟨i0, c, r.1, r.2⟩ from by
          simp [bestStep, hcond]] at hrun
        obtain ⟨ih1, ih2, ih3, ih4, ih5⟩ := ih (i0 + 1) _ b hden'
          (by
            intro x hx
            injection hx with hx
            subst hx
            exact ⟨hr2, Nat.lt_succ_self _⟩) hrun
        have hrel : radLE r (b.num, b.den2) ∧ (i0 < b.idx → radLt r (b.num, b.den2)) := by
          rcases ih5 with ⟨hbe, hidx⟩ | ⟨hge, hgq, hxcl⟩
          · injection hbe with hbe
            subst hbe
            exact ⟨le_rfl, fun hlt => absurd hlt (by simp)⟩
          · have := hxcl ⟨i0, c, r.1, r.2⟩ rfl
            exact ⟨le_of_lt this, fun _ => this⟩
        refine ⟨ih1, ?_, ?_, ?_, ?_⟩
        · intro j q hjq
          cases j with
          | zero =>
            rw [List.getElem?_cons_zero] at hjq
            injection hjq with hjq
            subst hjq
            exact hrel.1
          | succ j =>
            rw [List.getElem?_cons_succ] at hjq
            exact ih2 j q hjq
        · intro j q hjq hlt
          cases j with
          | zero =>
            rw [List.getElem?_cons_zero] at hjq
            injection hjq with hjq
            subst hjq
            exact hrel.2 (by omega)
          | succ j =>
            rw [List.getElem?_cons_succ] at hjq
            exact ih3 j q hjq (by omega)
        · intro _
          rcases ih5 with ⟨hbe, hidx⟩ | ⟨hge, hgq, hxcl⟩
          · injection hbe with hbe
            subst hbe
            exact hcond
          · have := hxcl ⟨i0, c, r.1, r.2⟩ rfl
            unfold radLt at this
            refine Or.inr ?_
            rcases Nat.eq_zero_or_pos b.num with h0 | h0
            · rw [h0] at this
              simp at this
            · exact h0
        · rcases ih5 with ⟨hbe, hidx⟩ | ⟨hge, hgq, hxcl⟩
          · injection hbe with hbe
            subst hbe
            refine Or.inr ⟨le_rfl, ?_, ?_⟩
            · simp
            · intro x hx
              exact absurd hx (by simp)
          · refine Or.inr ⟨by omega, ?_, ?_⟩
            · rw [show b.idx - i0 = (b.idx - (i0 + 1)) + 1 from by omega,
                List.getElem?_cons_succ]
              exact hgq
            · intro x hx
              exact absurd hx (by simp)
      · -- blank first entry: accumulator stays empty
        rw [show bestStep k none i0 c r = none from by simp [bestStep, hcond]] at hrun
        push_neg at hcond
        obtain ⟨hk0, hr10⟩ : k = 0 ∧ r.1 = 0 := by omega
        obtain ⟨ih1, ih2, ih3, ih4, ih5⟩ := ih (i0 + 1) none b hden'
          (by intro x hx; exact absurd hx (by simp)) hrun
        have hbnum : 0 < b.num := by
          rcases ih4 rfl with h | h
          · omega
          · exact h
        have hrel : radLt r (b.num, b.den2) := by
          unfold radLt
          rw [hr10]
          have : 0 < b.num ^ 2 * r.2 := Nat.mul_pos (Nat.pos_pow_of_pos _ hbnum) hr2
          simpa using this
        refine ⟨ih1, ?_, ?_, fun _ => ih4 rfl, ?_⟩
        · intro j q hjq
          cases j with
          | zero =>
            rw [List.getElem?_cons_zero] at hjq
            injection hjq with hjq
            subst hjq
            exact le_of_lt hrel
          | succ j =>
            rw [List.getElem?_cons_succ] at hjq
            exact ih2 j q hjq
        · intro j q hjq hlt
          cases j with
          | zero =>
            rw [List.getElem?_cons_zero] at hjq
            injection hjq with hjq
            subst hjq
            exact hrel
          | succ j =>
            rw [List.getElem?_cons_succ] at hjq
            exact ih3 j q hjq (by omega)
        · rcases ih5 with ⟨hbe, hidx⟩ | ⟨hge, hgq, hxcl⟩
          · exact absurd hbe (by simp)
          · refine Or.inr ⟨by omega, ?_, fun x hx => absurd hx (by simp)⟩
            rw [show b.idx - i0 = (b.idx - (i0 + 1)) + 1 from by omega,
              List.getElem?_cons_succ]
            exact hgq
    | some x =>
      obtain ⟨hxden, hxidx⟩ := hb0 x rfl
      by_cases hcond : x.num ^ 2 * r.2 < r.1 ^ 2 * x.den2
      · -- the entry displaces the accumulator
        rw [show bestStep k (some x) i0 c r = some ⟨i0, c, r.1, r.2⟩ from by
          simp [bestStep, hcond]] at hrun
        obtain ⟨ih1, ih2, ih3, ih4, ih5⟩ := ih (i0 + 1) _ b hden'
          (by
            intro y hy
            injection hy with hy
            subst hy
            exact ⟨hr2, Nat.lt_succ_self _⟩) hrun
        have hxr : radLt (x.num, x.den2) r := hcond
        have hrel : radLE r (b.num, b.den2) ∧ (i0 < b.idx → radLt r (b.num, b.den2)) ∧
            radLt (x.num, x.den2) (b.num, b.den2) := by
          rcases ih5 with ⟨hbe, hidx⟩ | ⟨hge, hgq, hxcl⟩
          · injection hbe with hbe
            subst hbe
            exact ⟨le_rfl, fun hlt => absurd hlt (by simp), hxr⟩
          · have hrb := hxcl ⟨i0, c, r.1, r.2⟩ rfl
            exact ⟨le_of_lt hrb, fun _ => hrb, radLt_trans hxr hrb⟩
        refine ⟨ih1, ?_, ?_, fun hn => absurd hn (by simp), ?_⟩
        · intro j q hjq
          cases j with
          | zero =>
            rw [List.getElem?_cons_zero] at hjq
            injection hjq with hjq
            subst hjq
            exact hrel.1
          | succ j =>
            rw [List.getElem?_cons_succ] at hjq
            exact ih2 j q hjq
        · intro j q hjq hlt
          cases j with
          | zero =>
            rw [List.getElem?_cons_zero] at hjq
            injection hjq with hjq
            subst hjq
            exact hrel.2.1 (by omega)
          | succ j =>
            rw [List.getElem?_cons_succ] at hjq
            exact ih3 j q hjq (by omega)
        · rcases ih5 with ⟨hbe, hidx⟩ | ⟨hge, hgq, hxcl⟩
          · injection hbe with hbe
            subst hbe
            refine Or.inr ⟨le_rfl, by simp, ?_⟩
            intro y hy
            injection hy with hy
            subst hy
            exact hxr
          · refine Or.inr ⟨by omega, ?_, ?_⟩
            · rw [show b.idx - i0 = (b.idx - (i0 + 1)) + 1 from by omega,
                List.getElem?_cons_succ]
              exact hgq
            · intro y hy
              injection hy with hy
              subst hy
              exact hrel.2.2
      · -- the accumulator survives
        rw [show bestStep k (some x) i0 c r = some x from by
          simp [bestStep, hcond]] at hrun
        have hrx : radLE r (x.num, x.den2) := Nat.not_lt.1 hcond
        obtain ⟨ih1, ih2, ih3, ih4, ih5⟩ := ih (i0 + 1) _ b hden'
          (by
            intro y hy
            injection hy with hy
            subst hy
            exact ⟨hxden, Nat.lt_succ_of_lt hxidx⟩) hrun
        have hrel : radLE r (b.num, b.den2) ∧ (radLt (x.num, x.den2) (b.num, b.den2) →
            radLt r (b.num, b.den2)) := by
          rcases ih5 with ⟨hbe, hidx⟩ | ⟨hge, hgq, hxcl⟩
          · injection hbe with hbe
            subst hbe
            exact ⟨hrx, fun h => radLE_radLt_trans hr2 hrx h⟩
          · have hxb := hxcl x rfl
            exact ⟨le_of_lt (radLE_radLt_trans hr2 hrx hxb),
              fun _ => radLE_radLt_trans hr2 hrx hxb⟩
        refine ⟨ih1, ?_, ?_, fun hn => absurd hn (by simp), ?_⟩
        · intro j q hjq
          cases j with
          | zero =>
            rw [List.getElem?_cons_zero] at hjq
            injection hjq with hjq
            subst hjq
            exact hrel.1
          | succ j =>
            rw [List.getElem?_cons_succ] at hjq
            exact ih2 j q hjq
        · intro j q hjq hlt
          cases j with
          | zero =>
            rw [List.getElem?_cons_zero] at hjq
            injection hjq with hjq
            subst hjq
            rcases ih5 with ⟨hbe, hidx⟩ | ⟨hge, hgq, hxcl⟩
            · injection hbe with hbe
              subst hbe
              exact absurd hlt (by omega)
            · exact hrel.2 (hxcl x rfl)
          | succ j =>
            rw [List.getElem?_cons_succ] at hjq
            exact ih3 j q hjq (by omega)
        · rcases ih5 with ⟨hbe, hidx⟩ | ⟨hge, hgq, hxcl⟩
          · injection hbe with hbe
            subst hbe
            exact Or.inl ⟨rfl, hxidx⟩
          · refine Or.inr ⟨by omega, ?_, ?_⟩
            · rw [show b.idx - i0 = (b.idx - (i0 + 1)) + 1 from by omega,
                List.getElem?_cons_succ]
              exact hgq
            · intro y hy
              injection hy with hy
              subst hy
              exact hxcl x rfl

/-- C2: whenever `search` returns a found result, the winning chunk is the
entry of the index at the returned best index `b.idx`, no indexed chunk's
score strictly exceeds the winner's (radical comparison of the cosines —
the per-query boost is added to every chunk alike and cancels), and every
chunk at an index strictly below `b.idx` scores strictly less: the
best-candidate update uses strict greater-than, so with two or more chunks
attaining the identical top score the first one in index order (the
earliest, lowest-index chunk) is returned. -/
theorem C2_tie_break_first_index (chunks : List SChunk) (bk : List String) (query : String)
    (t : ℚ) (mcl : Nat) (r : SearchResult)
    (hr : search chunks bk query t mcl = some r) (hf : r.found = true) :
    ∃ b : Best,
      bestLoop (kCount bk query) (chunks.zip (radsOf chunks query)) 0 none = some b ∧
      r = mkHit (kCount bk query) mcl b ∧
      (chunks.zip (radsOf chunks query))[b.idx]? = some (b.chunk, b.num, b.den2) ∧
      (∀ (j : Nat) (q : SChunk × Nat × Nat),
        (chunks.zip (radsOf chunks query))[j]? = some q → radLE q.2 (b.num, b.den2)) ∧
      (∀ (j : Nat) (q : SChunk × Nat × Nat),
        (chunks.zip (radsOf chunks query))[j]? = some q → j < b.idx →
          radLt q.2 (b.num, b.den2)) := by
  obtain ⟨b, hloop, hs, hmk⟩ := search_found_elim chunks bk query t mcl r hr hf
  obtain ⟨h1, h2, h3, h4, h5⟩ := bestLoop_spec (kCount bk query)
    (chunks.zip (radsOf chunks query)) 0 none b (zip_rads_den_pos chunks query)
    (fun x hx => absurd hx (by simp)) hloop
  rcases h5 with ⟨hbe, _⟩ | ⟨_, hq0, _⟩
  · exact absurd hbe (by simp)
  · rw [Nat.sub_zero] at hq0
    exact ⟨b, hloop, hmk, hq0, h2, fun j q hjq hlt => h3 j q hjq (by omega)⟩

/-- Witness for C2: two chunks with the same text "gamma delta" (hence
identical scores) and chunk ids 5 and 7; the returned result is built from
the first (index 0, chunk id 5). -/
theorem C2_tie_break_first_index_witness :
    (radsOf [(⟨"gamma delta", some 5, none, none⟩ : SChunk),
        ⟨"gamma delta", some 7, none, none⟩] "gamma" = [(1, 2), (1, 2)] ∧
      (mkHit (kCount [] "gamma") 600
        ⟨0, ⟨"gamma delta", some 5, none, none⟩, 1, 2⟩).chunk_id = 5) ∧
    ∃ b : Best,
      bestLoop (kCount [] "gamma")
        ([(⟨"gamma delta", some 5, none, none⟩ : SChunk),
          ⟨"gamma delta", some 7, none, none⟩].zip
          (radsOf [(⟨"gamma delta", some 5, none, none⟩ : SChunk),
            ⟨"gamma delta", some 7, none, none⟩] "gamma")) 0 none = some b ∧
      mkHit (kCount [] "gamma") 600 ⟨0, ⟨"gamma delta", some 5, none, none⟩, 1, 2⟩ =
        mkHit (kCount [] "gamma") 600 b ∧
      ([(⟨"gamma delta", some 5, none, none⟩ : SChunk),
        ⟨"gamma delta", some 7, none, none⟩].zip
        (radsOf [(⟨"gamma delta", some 5, none, none⟩ : SChunk),
          ⟨"gamma delta", some 7, none, none⟩] "gamma"))[b.idx]? =
        some (b.chunk, b.num, b.den2) ∧
      (∀ (j : Nat) (q : SChunk × Nat × Nat),
        ([(⟨"gamma delta", some 5, none, none⟩ : SChunk),
          ⟨"gamma delta", some 7, none, none⟩].zip
          (radsOf [(⟨"gamma delta", some 5, none, none⟩ : SChunk),
            ⟨"gamma delta", some 7, none, none⟩] "gamma"))[j]? = some q →
          radLE q.2 (b.num, b.den2)) ∧
      (∀ (j : Nat) (q : SChunk × Nat × Nat),
        ([(⟨"gamma delta", some 5, none, none⟩ : SChunk),
          ⟨"gamma delta", some 7, none, none⟩].zip
          (radsOf [(⟨"gamma delta", some 5, none, none⟩ : SChunk),
            ⟨"gamma delta", some 7, none, none⟩] "gamma"))[j]? = some q → j < b.idx →
          radLt q.2 (b.num, b.den2)) := by
  have hb : bestLoop (kCount [] "gamma")
      ([(⟨"gamma delta", some 5, none, none⟩ : SChunk),
        ⟨"gamma delta", some 7, none, none⟩].zip
        (radsOf [(⟨"gamma delta", some 5, none, none⟩ : SChunk),
          ⟨"gamma delta", some 7, none, none⟩] "gamma")) 0 none =
      some ⟨0, ⟨"gamma delta", some 5, none, none⟩, 1, 2⟩ := by decide
  have hs : scoreGtQ (kCount [] "gamma") 1 2 (1 / 10) = true := by
    rw [show kCount [] "gamma" = 0 from rfl]
    unfold scoreGtQ
    norm_num
  exact ⟨by decide,
    C2_tie_break_first_index _ _ _ _ _ _ (search_eval_hit _ _ _ _ _ _ (by decide) hb hs) rfl⟩

/-! ### C3 — context truncation -/

theorem dropWhile_ne_space (l : List Char) :
    l.dropWhile (fun c => c ≠ ' ') = [] ∨
    ∃ b, l.dropWhile (fun c => c ≠ ' ') = ' ' :: b := by
  induction l with
  | nil => exact Or.inl rfl
  | cons c cb ih =>
    by_cases hc : c = ' '
    · subst hc
      refine Or.inr ⟨cb, ?_⟩
      rw [List.dropWhile_cons_of_neg (by simp)]
    · rw [List.dropWhile_cons_of_pos (by simp [hc])]
      exact ih

theorem beforeLastSpace_spec {l : List Char} (h : l.contains ' ' = true) :
    ∃ j, j < l.length ∧ beforeLastSpace l = l.take j ∧ l[j]? = some ' ' := by
  have hmem : ' ' ∈ l.reverse := by simpa using h
  rcases dropWhile_ne_space l.reverse with hd | ⟨b, hd⟩
  · have hall := List.dropWhile_eq_nil_iff.1 hd
    have := hall ' ' hmem
    simp at this
  · have hsplit : l.reverse.takeWhile (fun c => c ≠ ' ') ++ (' ' :: b) = l.reverse := by
      rw [← hd]
      exact List.takeWhile_append_dropWhile _ _
    have h2 := congrArg List.reverse hsplit
    rw [List.reverse_append, List.reverse_reverse] at h2
    have hl : l = b.reverse ++ ' ' :: (l.reverse.takeWhile (fun c => c ≠ ' ')).reverse := by
      conv_lhs => rw [← h2]
      rw [List.reverse_cons, List.append_assoc, List.singleton_append]
    refine ⟨b.reverse.length, ?_, ?_, ?_⟩
    · rw [hl]
      simp only [List.length_append, List.length_cons]
      omega
    · unfold beforeLastSpace
      rw [if_pos h, hd]
      rw [show (' ' :: b).tail = b from rfl]
      conv_rhs => rw [hl]
      rw [List.take_left]
    · conv_lhs => rw [hl]
      rw [List.getElem?_append_right (Nat.le_refl _), Nat.sub_self, List.getElem?_cons_zero]

/-- C3 amended: for every found search result, with `s` the stripped best
chunk text: if `s` fits in `max_context_length` the context is `s` itself,
untruncated and without a marker; otherwise the context is a prefix of `s`
of at most `mcl` characters plus the three-character ellipsis marker, and
the cut is made at the last SPACE (`' '`, not an arbitrary whitespace
character) of the first `mcl` characters when one exists — when the
`mcl`-character prefix contains no space, the cut is made exactly at the
limit, even if it falls inside a word and even if another whitespace
character (e.g. a newline) occurs earlier. -/
theorem C3_amended_truncation (chunks : List SChunk) (bk : List String) (query : String)
    (t : ℚ) (mcl : Nat) (r : SearchResult)
    (hr : search chunks bk query t mcl = some r) (hf : r.found = true) :
    ∃ b : Best,
      bestLoop (kCount bk query) (chunks.zip (radsOf chunks query)) 0 none = some b ∧
      ((pyStrip b.chunk.text.data).length ≤ mcl → r.context = pyStrip b.chunk.text.data) ∧
      (mcl < (pyStrip b.chunk.text.data).length →
        r.context.length ≤ mcl + 3 ∧
        ∃ j, j ≤ mcl ∧ r.context = (pyStrip b.chunk.text.data).take j ++ ellipsis ∧
          (((pyStrip b.chunk.text.data).take mcl).contains ' ' = true →
            j < mcl ∧ (pyStrip b.chunk.text.data)[j]? = some ' ') ∧
          (((pyStrip b.chunk.text.data).take mcl).contains ' ' = false → j = mcl)) := by
  obtain ⟨b, hloop, hs, hmk⟩ := search_found_elim chunks bk query t mcl r hr hf
  subst hmk
  refine ⟨b, hloop, ?_, ?_⟩
  · intro hle
    show truncateContext mcl (pyStrip b.chunk.text.data) = _
    unfold truncateContext
    rw [if_neg (by omega)]
  · intro hgt
    have hctx : (mkHit (kCount bk query) mcl b).context =
        beforeLastSpace ((pyStrip b.chunk.text.data).take mcl) ++ ellipsis := by
      show truncateContext mcl (pyStrip b.chunk.text.data) = _
      unfold truncateContext
      rw [if_pos hgt]
    have hlen : ((pyStrip b.chunk.text.data).take mcl).length = mcl := by
      rw [List.length_take]
      omega
    by_cases hsp : ((pyStrip b.chunk.text.data).take mcl).contains ' ' = true
    · obtain ⟨j, hjlt, hbls, hjget⟩ := beforeLastSpace_spec hsp
      rw [hlen] at hjlt
      have hget : (pyStrip b.chunk.text.data)[j]? = some ' ' := by
        rw [List.getElem?_take_of_lt hjlt] at hjget
        exact hjget
      refine ⟨?_, j, le_of_lt hjlt, ?_, fun _ => ⟨hjlt, hget⟩, ?_⟩
      · rw [hctx, hbls]
        simp only [List.length_append, List.length_take, hlen, ellipsis, List.length_cons,
          List.length_nil]
        omega
      · rw [hctx, hbls, List.take_take]
        congr 2
        omega
      · intro hfalse
        rw [hsp] at hfalse
        exact absurd hfalse (by simp)
    · have hsp' : ((pyStrip b.chunk.text.data).take mcl).contains ' ' = false := by
        rcases Bool.eq_false_or_eq_true (((pyStrip b.chunk.text.data).take mcl).contains ' ')
          with h | h
        · exact absurd h hsp
        · exact h
      have hbls : beforeLastSpace ((pyStrip b.chunk.text.data).take mcl) =
          (pyStrip b.chunk.text.data).take mcl := by
        unfold beforeLastSpace
        rw [if_neg (by rw [hsp']; decide)]
      refine ⟨?_, mcl, le_rfl, ?_, ?_, fun _ => rfl⟩
      · rw [hctx, hbls]
        simp only [List.length_append, hlen, ellipsis, List.length_cons, List.length_nil]
        omega
      · rw [hctx, hbls]
      · intro htrue
        rw [hsp'] at htrue
        exact absurd htrue (by simp)

/-- Witness for C3 amended, on a chunk whose stripped text
"alpha beta gamma" (16 characters) is truncated at `mcl = 12`: the prefix
"alpha beta g" contains spaces, so the cut lands on the last space
(index 10) and the context is "alpha beta" plus the marker. -/
theorem C3_amended_truncation_witness :
    ∃ b : Best,
      bestLoop (kCount [] "alpha")
        ([(⟨"alpha beta gamma", none, none, none⟩ : SChunk)].zip
          (radsOf [⟨"alpha beta gamma", none, none, none⟩] "alpha")) 0 none = some b ∧
      ((pyStrip b.chunk.text.data).length ≤ 12 →
        (mkHit (kCount [] "alpha") 12
          ⟨0, ⟨"alpha beta gamma", none, none, none⟩, 1, 3⟩).context =
          pyStrip b.chunk.text.data) ∧
      (12 < (pyStrip b.chunk.text.data).length →
        (mkHit (kCount [] "alpha") 12
          ⟨0, ⟨"alpha beta gamma", none, none, none⟩, 1, 3⟩).context.length ≤ 12 + 3 ∧
        ∃ j, j ≤ 12 ∧
          (mkHit (kCount [] "alpha") 12
            ⟨0, ⟨"alpha beta gamma", none, none, none⟩, 1, 3⟩).context =
            (pyStrip b.chunk.text.data).take j ++ ellipsis ∧
          (((pyStrip b.chunk.text.data).take 12).contains ' ' = true →
            j < 12 ∧ (pyStrip b.chunk.text.data)[j]? = some ' ') ∧
          (((pyStrip b.chunk.text.data).take 12).contains ' ' = false → j = 12)) := by
  have hb : bestLoop (kCount [] "alpha")
      ([(⟨"alpha beta gamma", none, none, none⟩ : SChunk)].zip
        (radsOf [⟨"alpha beta gamma", none, none, none⟩] "alpha")) 0 none =
      some ⟨0, ⟨"alpha beta gamma", none, none, none⟩, 1, 3⟩ := by decide
  have hsq : scoreGtQ (kCount [] "alpha") 1 3 (1 / 10) = true := by
    rw [show kCount [] "alpha" = 0 from rfl]
    unfold scoreGtQ
    norm_num
  exact C3_amended_truncation [⟨"alpha beta gamma", none, none, none⟩] [] "alpha" (1 / 10) 12
    (mkHit (kCount [] "alpha") 12 ⟨0, ⟨"alpha beta gamma", none, none, none⟩, 1, 3⟩)
    (search_eval_hit [⟨"alpha beta gamma", none, none, none⟩] [] "alpha" (1 / 10) 12
      ⟨0, ⟨"alpha beta gamma", none, none, none⟩, 1, 3⟩ (by decide) hb hsq) rfl

/-- C3 counterexample: the chunk text "ab\ncdefgh" at `mcl = 5` yields the
context "ab\ncd..." — the mcl-prefix "ab\ncd" contains no space, so the
code cuts exactly at the limit even though a whitespace boundary (the
newline at index 2) is available at or before the limit: the returned
context is not cut at a whitespace boundary, refuting the claimed shape. -/
theorem C3_counterexample :
    search [⟨"ab\ncdefgh", none, none, none⟩] [] "cdefgh" (1 / 10) 5 =
      some { context := "ab\ncd...".data
             confidence := ⟨0, 1, 1⟩
             chunk_id := 0
             source_url := ""
             source_title := ""
             found := true } ∧
    isPyWs ("ab\ncdefgh".data.getD 2 'x') = true ∧
    specWhitespaceCut "ab\ncdefgh".data "ab\ncd...".data 5 = false := by
  have hb : bestLoop (kCount [] "cdefgh")
      ([(⟨"ab\ncdefgh", none, none, none⟩ : SChunk)].zip
        (radsOf [⟨"ab\ncdefgh", none, none, none⟩] "cdefgh")) 0 none =
      some ⟨0, ⟨"ab\ncdefgh", none, none, none⟩, 1, 1⟩ := by decide
  have hsq : scoreGtQ (kCount [] "cdefgh") 1 1 (1 / 10) = true := by
    rw [show kCount [] "cdefgh" = 0 from rfl]
    unfold scoreGtQ
    norm_num
  have hr := search_eval_hit [⟨"ab\ncdefgh", none, none, none⟩] [] "cdefgh" (1 / 10) 5
    ⟨0, ⟨"ab\ncdefgh", none, none, none⟩, 1, 1⟩ (by decide) hb hsq
  refine ⟨?_, by decide, by decide⟩
  rw [hr]
  decide

/-! ### C8 — paragraph preservation -/

theorem splitParas_head : ∀ (c : Char) (rest p0 : List Char) (ps : List (List Char)),
    splitParas (c :: rest) = p0 :: ps → p0 = [] ∨ ∃ t, p0 = c :: t := by
  intro c rest
  cases rest with
  | nil =>
    intro p0 ps h
    rw [show splitParas [c] = [[c]] from by simp [splitParas]] at h
    injection h with h1 h2
    exact Or.inr ⟨[], h1.symm⟩
  | cons d rest' =>
    intro p0 ps h
    by_cases hnl : c = '\n' ∧ d = '\n'
    · obtain ⟨rfl, rfl⟩ := hnl
      rw [show splitParas ('\n' :: '\n' :: rest') = [] :: splitParas rest' from by
        simp [splitParas]] at h
      injection h with h1 h2
      exact Or.inl h1.symm
    · cases hsp : splitParas (d :: rest') with
      | nil =>
        rw [show splitParas (c :: d :: rest') = [[c]] from by
          rw [splitParas.eq_def]
          simp only [if_neg hnl, hsp]] at h
        injection h with h1 h2
        exact Or.inr ⟨[], h1.symm⟩
      | cons q qs =>
        rw [show splitParas (c :: d :: rest') = (c :: q) :: qs from by
          rw [splitParas.eq_def]
          simp only [if_neg hnl, hsp]] at h
        injection h with h1 h2
        exact Or.inr ⟨q, h1.symm⟩

theorem splitParas_hasNN : ∀ (l : List Char), ∀ p ∈ splitParas l, hasNN p = false := by
  intro l
  induction l using splitParas.induct with
  | case1 =>
    intro p hp
    simp only [splitParas, List.mem_singleton] at hp
    subst hp
    rfl
  | case2 c =>
    intro p hp
    simp only [splitParas, List.mem_singleton] at hp
    subst hp
    rfl
  | case3 c d rest hnl ih =>
    obtain ⟨rfl, rfl⟩ := hnl
    intro p hp
    rw [show splitParas ('\n' :: '\n' :: rest) = [] :: splitParas rest from by
      simp [splitParas]] at hp
    rcases List.mem_cons.1 hp with rfl | hp
    · rfl
    · exact ih p hp
  | case4 c d rest hnl hsp ih =>
    intro p hp
    rw [show splitParas (c :: d :: rest) = [[c]] from by
      rw [splitParas.eq_def]
      simp only [if_neg hnl, hsp]] at hp
    simp only [List.mem_singleton] at hp
    subst hp
    rfl
  | case5 c d rest hnl p0 ps hsp ih =>
    intro p hp
    rw [show splitParas (c :: d :: rest) = (c :: p0) :: ps from by
      rw [splitParas.eq_def]
      simp only [if_neg hnl, hsp]] at hp
    rcases List.mem_cons.1 hp with rfl | hp
    · have hp0 : hasNN p0 = false := ih p0 (by rw [hsp]; exact List.mem_cons_self _ _)
      rcases splitParas_head d rest p0 ps hsp with rfl | ⟨t, rfl⟩
      · rfl
      · have h1 : (decide (c = '\n') && decide (d = '\n')) = false := by
          by_cases hc : c = '\n'
          · by_cases hd : d = '\n'
            · exact absurd ⟨hc, hd⟩ hnl
            · simp [hd]
          · simp [hc]
        show ((decide (c = '\n') && decide (d = '\n')) || hasNN (d :: t)) = false
        rw [h1, hp0]
        rfl
    · exact ih p (by rw [hsp]; exact List.mem_cons_of_mem _ hp)

theorem splitParas_append : ∀ (a b : List Char), hasNN a = false →
    a.getLast? ≠ some '\n' → splitParas (a ++ sepNN ++ b) = a :: splitParas b := by
  intro a
  induction a using splitParas.induct with
  | case1 =>
    intro b _ _
    rw [show ([] : List Char) ++ sepNN ++ b = '\n' :: '\n' :: b from rfl]
    simp [splitParas]
  | case2 c =>
    intro b _ hlast
    have hc : ¬ c = '\n' := by
      intro hcc
      subst hcc
      exact hlast rfl
    rw [show [c] ++ sepNN ++ b = c :: '\n' :: ('\n' :: b) from rfl]
    rw [splitParas.eq_def]
    simp only [hc, false_and, if_false]
    rw [show splitParas ('\n' :: '\n' :: b) = [] :: splitParas b from by simp [splitParas]]
  | case3 c d rest hnl ih =>
    obtain ⟨rfl, rfl⟩ := hnl
    intro b ha _
    rw [show hasNN ('\n' :: '\n' :: rest) = true from rfl] at ha
    exact absurd ha (by decide)
  | case4 c d rest hnl hsp ih =>
    intro b ha hlast
    have ha' : hasNN (d :: rest) = false := by
      have : ((decide (c = '\n') && decide (d = '\n')) || hasNN (d :: rest)) = false := ha
      rcases Bool.or_eq_false_iff.1 this with ⟨_, h⟩
      exact h
    have hlast' : (d :: rest).getLast? ≠ some '\n' := by
      rwa [List.getLast?_cons_cons] at hlast
    rw [show (c :: d :: rest) ++ sepNN ++ b = c :: d :: (rest ++ sepNN ++ b) from rfl]
    rw [splitParas.eq_def]
    simp only [if_neg hnl]
    rw [show d :: (rest ++ sepNN ++ b) = (d :: rest) ++ sepNN ++ b from rfl,
      ih b ha' hlast']
  | case5 c d rest hnl p0 ps hsp ih =>
    intro b ha hlast
    have ha' : hasNN (d :: rest) = false := by
      have : ((decide (c = '\n') && decide (d = '\n')) || hasNN (d :: rest)) = false := ha
      rcases Bool.or_eq_false_iff.1 this with ⟨_, h⟩
      exact h
    have hlast' : (d :: rest).getLast? ≠ some '\n' := by
      rwa [List.getLast?_cons_cons] at hlast
    rw [show (c :: d :: rest) ++ sepNN ++ b = c :: d :: (rest ++ sepNN ++ b) from rfl]
    rw [splitParas.eq_def]
    simp only [if_neg hnl]
    rw [show d :: (rest ++ sepNN ++ b) = (d :: rest) ++ sepNN ++ b from rfl,
      ih b ha' hlast']

theorem splitParas_self : ∀ (a : List Char), hasNN a = false → splitParas a = [a] := by
  intro a
  induction a using splitParas.induct with
  | case1 => intro _; rfl
  | case2 c => intro _; simp [splitParas]
  | case3 c d rest hnl ih =>
    obtain ⟨rfl, rfl⟩ := hnl
    intro ha
    rw [show hasNN ('\n' :: '\n' :: rest) = true from rfl] at ha
    exact absurd ha (by decide)
  | case4 c d rest hnl hsp ih =>
    intro ha
    have ha' : hasNN (d :: rest) = false := by
      have : ((decide (c = '\n') && decide (d = '\n')) || hasNN (d :: rest)) = false := ha
      rcases Bool.or_eq_false_iff.1 this with ⟨_, h⟩
      exact h
    rw [ih ha'] at hsp
    exact absurd hsp (by simp)
  | case5 c d rest hnl p0 ps hsp ih =>
    intro ha
    have ha' : hasNN (d :: rest) = false := by
      have : ((decide (c = '\n') && decide (d = '\n')) || hasNN (d :: rest)) = false := ha
      rcases Bool.or_eq_false_iff.1 this with ⟨_, h⟩
      exact h
    rw [splitParas.eq_def]
    simp only [if_neg hnl]
    rw [ih ha']

theorem joinSep_cons_ex (p : List Char) (B : List (List Char)) :
    ∃ t, joinSep (p :: B) = p ++ t := by
  cases B with
  | nil => exact ⟨[], by simp [joinSep]⟩
  | cons q B' => exact ⟨sepNN ++ joinSep (q :: B'), by simp [joinSep]⟩

theorem joinSep_splitParas : ∀ (B : List (List Char)) (p : List Char),
    (∀ q ∈ p :: B, hasNN q = false ∧ q.getLast? ≠ some '\n') →
    splitParas (joinSep (p :: B)) = p :: B := by
  intro B
  induction B with
  | nil =>
    intro p hq
    rw [show joinSep [p] = p from by simp [joinSep]]
    exact splitParas_self p (hq p (List.mem_cons_self _ _)).1
  | cons q B' ih =>
    intro p hq
    rw [show joinSep (p :: q :: B') = p ++ sepNN ++ joinSep (q :: B') from by simp [joinSep]]
    rw [splitParas_append p (joinSep (q :: B')) (hq p (List.mem_cons_self _ _)).1
      (hq p (List.mem_cons_self _ _)).2]
    rw [ih q (fun x hx => hq x (List.mem_cons_of_mem _ hx))]

theorem glue_cons (p : List Char) (B : List (List Char)) :
    glue (p :: B) = p ++ sepNN ++ glue B := by
  simp [glue]

theorem glue_eq_joinSep_append : ∀ (B : List (List Char)) (p : List Char),
    glue (p :: B) = joinSep (p :: B) ++ sepNN := by
  intro B
  induction B with
  | nil => intro p; simp [glue, joinSep]
  | cons q B' ih =>
    intro p
    rw [glue_cons, ih q]
    rw [show joinSep (p :: q :: B') = p ++ sepNN ++ joinSep (q :: B') from by simp [joinSep]]
    simp [List.append_assoc]

theorem glue_append_one : ∀ (B : List (List Char)) (p : List Char),
    glue (B ++ [p]) = glue B ++ (p ++ sepNN) := by
  intro B
  induction B with
  | nil => intro p; simp [glue]
  | cons q B' ih =>
    intro p
    rw [List.cons_append, glue_cons, glue_cons, ih p]
    simp [List.append_assoc]

theorem glue_eq_nil_iff : ∀ (B : List (List Char)), glue B = [] ↔ B = [] := by
  intro B
  cases B with
  | nil => simp [glue]
  | cons p B' =>
    rw [glue_cons]
    constructor
    · intro h
      have := congrArg List.length h
      simp only [List.length_append, List.length_nil, sepNN, List.length_cons] at this
      omega
    · intro h
      exact absurd h (by simp)

theorem length_dropWhile_le' (p : Char → Bool) (l : List Char) :
    (l.dropWhile p).length ≤ l.length :=
  (List.dropWhile_sublist p).length_le

theorem stripped_head_not_ws {p : List Char} (h : pyStrip p = p) :
    ∀ c p', p = c :: p' → isPyWs c = false := by
  intro c p' hp
  subst hp
  by_contra hws
  rw [Bool.not_eq_false] at hws
  have h1 : ((c :: p').dropWhile isPyWs).length ≤ p'.length := by
    rw [List.dropWhile_cons_of_pos hws]
    exact length_dropWhile_le' _ _
  have h2 : (pyStrip (c :: p')).length ≤ ((c :: p').dropWhile isPyWs).length := by
    unfold pyStrip
    rw [List.length_reverse]
    exact le_trans (length_dropWhile_le' _ _) (le_of_eq (List.length_reverse _))
  rw [h] at h2
  simp only [List.length_cons] at h2
  omega

theorem stripped_last_not_ws {p : List Char} (h : pyStrip p = p) :
    ∀ c q, p.reverse = c :: q → isPyWs c = false := by
  intro c q hp
  by_contra hws
  rw [Bool.not_eq_false] at hws
  have hcase : p.dropWhile isPyWs = p ∨ (p.dropWhile isPyWs).length < p.length := by
    cases p with
    | nil => exact Or.inl rfl
    | cons c' p' =>
      by_cases hws' : isPyWs c' = true
      · refine Or.inr ?_
        rw [List.dropWhile_cons_of_pos hws']
        have := length_dropWhile_le' isPyWs p'
        simp only [List.length_cons]
        omega
      · rw [List.dropWhile_cons_of_neg hws']
        exact Or.inl rfl
  have hlen : (pyStrip p).length = p.length := by rw [h]
  rcases hcase with hX | hX
  · have hle : (pyStrip p).length ≤ q.length := by
      unfold pyStrip
      rw [List.length_reverse, hX, hp, List.dropWhile_cons_of_pos hws]
      exact length_dropWhile_le' _ _
    have hq : p.length = q.length + 1 := by
      have := congrArg List.length hp
      simp only [List.length_reverse, List.length_cons] at this
      omega
    omega
  · have : (pyStrip p).length ≤ (p.dropWhile isPyWs).length := by
      unfold pyStrip
      rw [List.length_reverse]
      exact le_trans (length_dropWhile_le' _ _) (le_of_eq (List.length_reverse _))
    omega

theorem pyStrip_sandwich {X : List Char} (hne : X ≠ [])
    (hhead : ∀ c X', X = c :: X' → isPyWs c = false)
    (hlast : ∀ c Y, X.reverse = c :: Y → isPyWs c = false) :
    pyStrip (X ++ sepNN) = X := by
  obtain ⟨c, X', rfl⟩ : ∃ c X', X = c :: X' := by
    cases X with
    | nil => exact absurd rfl hne
    | cons a b => exact ⟨a, b, rfl⟩
  unfold pyStrip
  rw [show (c :: X') ++ sepNN = c :: (X' ++ sepNN) from rfl]
  rw [List.dropWhile_cons_of_neg (by rw [hhead c X' rfl]; decide)]
  have hrev : (c :: (X' ++ sepNN)).reverse = '\n' :: '\n' :: (c :: X').reverse := by
    rw [List.reverse_cons, List.reverse_append]
    rw [show sepNN.reverse = '\n' :: ['\n'] from rfl]
    simp [List.reverse_cons]
  rw [hrev]
  rw [List.dropWhile_cons_of_pos (by decide), List.dropWhile_cons_of_pos (by decide)]
  obtain ⟨c2, Y, hY⟩ : ∃ c2 Y, (c :: X').reverse = c2 :: Y := by
    cases hrc : (c :: X').reverse with
    | nil =>
      have := congrArg List.length hrc
      simp at this
    | cons a b => exact ⟨a, b, rfl⟩
  rw [hY, List.dropWhile_cons_of_neg (by rw [hlast c2 Y hY]; decide), ← hY, List.reverse_reverse]

theorem exists_rev_cons {p : List Char} (hne : p ≠ []) : ∃ c Y, p.reverse = c :: Y := by
  cases hrc : p.reverse with
  | nil =>
    have h0 : p = [] := by
      have := congrArg List.reverse hrc
      simpa using this
    exact absurd h0 hne
  | cons a b => exact ⟨a, b, rfl⟩

theorem stripped_getLast_ne_nl {p : List Char} (hs : pyStrip p = p) (hne : p ≠ []) :
    p.getLast? ≠ some '\n' := by
  obtain ⟨c, Y, hY⟩ := exists_rev_cons hne
  have hws := stripped_last_not_ws hs c Y hY
  rw [← List.head?_reverse, hY]
  intro hcontra
  injection hcontra with hc
  rw [hc] at hws
  exact absurd hws (by decide)

theorem joinSep_ne_nil {p : List Char} (B : List (List Char)) (hne : p ≠ []) :
    joinSep (p :: B) ≠ [] := by
  obtain ⟨t0, hj⟩ := joinSep_cons_ex p B
  rw [hj]
  obtain ⟨c0, p0, rfl⟩ : ∃ c0 p0, p = c0 :: p0 := by
    cases p with
    | nil => exact absurd rfl hne
    | cons a b => exact ⟨a, b, rfl⟩
  simp

theorem joinSep_last_not_ws : ∀ (B : List (List Char)) (p : List Char),
    (∀ q ∈ p :: B, pyStrip q = q ∧ q ≠ []) →
    ∀ c Y, (joinSep (p :: B)).reverse = c :: Y → isPyWs c = false := by
  intro B
  induction B with
  | nil =>
    intro p hq c Y hrev
    rw [show joinSep [p] = p from by simp [joinSep]] at hrev
    exact stripped_last_not_ws (hq p (List.mem_cons_self _ _)).1 c Y hrev
  | cons q B' ih =>
    intro p hq c Y hrev
    have hqne : q ≠ [] := (hq q (List.mem_cons_of_mem _ (List.mem_cons_self _ _))).2
    obtain ⟨c2, Y2, hY2⟩ := exists_rev_cons (joinSep_ne_nil B' hqne)
    have hws2 := ih q (fun x hx => hq x (List.mem_cons_of_mem _ hx)) c2 Y2 hY2
    rw [show joinSep (p :: q :: B') = p ++ (sepNN ++ joinSep (q :: B')) from by
      simp [joinSep, List.append_assoc]] at hrev
    rw [List.reverse_append, List.reverse_append, hY2] at hrev
    simp only [List.cons_append] at hrev
    injection hrev with h1 _
    rw [← h1]
    exact hws2

theorem chunkText_of_block (p : List Char) (B' : List (List Char))
    (hB : ∀ q ∈ p :: B', pyStrip q = q ∧ q ≠ [] ∧ hasNN q = false) :
    pyStrip (glue (p :: B')) = joinSep (p :: B') ∧
    splitParas (joinSep (p :: B')) = p :: B' := by
  have hhead0 := hB p (List.mem_cons_self _ _)
  obtain ⟨c0, p0, hp0⟩ : ∃ c0 p0, p = c0 :: p0 := by
    cases p with
    | nil => exact absurd rfl hhead0.2.1
    | cons a b => exact ⟨a, b, rfl⟩
  obtain ⟨t0, hj⟩ := joinSep_cons_ex p B'
  constructor
  · rw [glue_eq_joinSep_append]
    apply pyStrip_sandwich (joinSep_ne_nil B' hhead0.2.1)
    · intro c X' hX
      rw [hj, hp0, List.cons_append] at hX
      injection hX with h1 h2
      rw [← h1]
      exact stripped_head_not_ws hhead0.1 c0 p0 hp0
    · exact joinSep_last_not_ws B' p (fun x hx => ⟨(hB x hx).1, (hB x hx).2.1⟩)
  · exact joinSep_splitParas B' p
      (fun x hx => ⟨(hB x hx).2.2, stripped_getLast_ne_nl (hB x hx).1 (hB x hx).2.1⟩)

theorem chunkLoop_paras (cs : Nat) (tc : List Char → Nat) (u t : String) :
    ∀ (ps : List (List Char)) (B : List (List Char)) (cid : Nat),
      (∀ p ∈ B, pyStrip p = p ∧ p ≠ [] ∧ hasNN p = false) →
      (∀ p ∈ ps, pyStrip p = p ∧ hasNN p = false) →
      ((chunkLoop cs tc u t ps (glue B) cid).map (fun c => splitParas c.text)).flatten
        = B ++ ps.filter (fun p => !p.isEmpty) := by
  intro ps
  induction ps with
  | nil =>
    intro B cid hB _
    unfold chunkLoop
    cases B with
    | nil => simp [glue]
    | cons p1 B1 =>
      rw [if_neg (fun h => absurd ((glue_eq_nil_iff (p1 :: B1)).1 h) (by simp))]
      obtain ⟨hstrip, hsplit⟩ := chunkText_of_block p1 B1 hB
      simp only [List.map_cons, List.map_nil, List.flatten_cons, List.flatten_nil,
        List.filter_nil, List.append_nil]
      rw [hstrip, hsplit]
  | cons p ps ih =>
    intro B cid hB hps
    have hp := hps p (List.mem_cons_self _ _)
    have hps' : ∀ q ∈ ps, pyStrip q = q ∧ hasNN q = false :=
      fun q hq => hps q (List.mem_cons_of_mem _ hq)
    unfold chunkLoop
    by_cases hskip : pyStrip p = []
    · rw [if_pos hskip]
      have hpe : p = [] := by rw [← hp.1, hskip]
      rw [ih B cid hB hps']
      rw [show (p :: ps).filter (fun q => !q.isEmpty) = ps.filter (fun q => !q.isEmpty) from by
        rw [hpe]
        simp]
    · rw [if_neg hskip]
      have hpne : p ≠ [] := fun hpe => hskip (by rw [hpe]; rfl)
      have hpfalse : p.isEmpty = false := by
        cases p with
        | nil => exact absurd rfl hpne
        | cons a b => rfl
      have hfilter : (p :: ps).filter (fun q => !q.isEmpty) =
          p :: ps.filter (fun q => !q.isEmpty) := by
        rw [List.filter_cons]
        simp [hpfalse]
      by_cases hfit : (glue B).length + p.length ≤ cs
      · rw [if_pos hfit]
        rw [show glue B ++ p ++ sepNN = glue (B ++ [p]) from by
          rw [glue_append_one]
          simp [List.append_assoc]]
        rw [ih (B ++ [p]) cid (by
          intro q hq
          rcases List.mem_append.1 hq with h | h
          · exact hB q h
          · simp only [List.mem_singleton] at h
            subst h
            exact ⟨hp.1, hpne, hp.2⟩) hps']
        rw [hfilter]
        simp
      · rw [if_neg hfit]
        by_cases hcur : glue B = []
        · rw [if_pos hcur]
          have hBe : B = [] := (glue_eq_nil_iff B).1 hcur
          subst hBe
          rw [show p ++ sepNN = glue [p] from by simp [glue]]
          rw [ih [p] cid (by
            intro q hq
            simp only [List.mem_singleton] at hq
            subst hq
            exact ⟨hp.1, hpne, hp.2⟩) hps']
          rw [hfilter]
          rfl
        · rw [if_neg hcur]
          obtain ⟨p1, B1, rfl⟩ : ∃ p1 B1, B = p1 :: B1 := by
            cases B with
            | nil => exact absurd rfl hcur
            | cons a b => exact ⟨a, b, rfl⟩
          obtain ⟨hstrip, hsplit⟩ := chunkText_of_block p1 B1 hB
          rw [show p ++ sepNN = glue [p] from by simp [glue]]
          simp only [List.map_cons, List.flatten_cons]
          rw [hstrip, hsplit]
          rw [ih [p] (cid + 1) (by
            intro q hq
            simp only [List.mem_singleton] at hq
            subst hq
            exact ⟨hp.1, hpne, hp.2⟩) hps']
          rw [hfilter]
          simp

/-- C8 counterexample: the document " a" (one paragraph with a leading
space) is chunked into a single chunk whose text is "a": the emitted texts
do not reconstruct the original paragraph " a" unchanged — the chunk text
is stripped of the paragraph's boundary whitespace. -/
theorem C8_counterexample :
    (chunk_text 1000 countTokensApprox " a".data "u" "t").map Chunk.text = ["a".data] ∧
    (splitParas " a".data).filter (fun p => !p.isEmpty) = [" a".data] ∧
    ("a".data : List Char) ≠ " a".data := by
  refine ⟨by decide, by decide, by decide⟩

/-- C8 amended: for a document whose paragraphs carry no leading or
trailing whitespace (each paragraph of the blank-line split equals its own
strip — the situation for scraper output, whose lines are stripped), the
chunker loses and alters nothing: splitting the emitted chunk texts back
at blank lines and concatenating, in order, yields exactly the non-empty
paragraphs of the document, each appearing exactly once, whole (never
split across two chunks — in particular an oversized paragraph is emitted
whole inside a single chunk).  In general the reconstruction holds only up
to stripping of whitespace at chunk boundaries (see the counterexample). -/
theorem C8_amended_paragraph_preservation (cs : Nat) (tc : List Char → Nat)
    (text : List Char) (u t : String)
    (H : ∀ p ∈ splitParas text, pyStrip p = p) :
    ((chunk_text cs tc text u t).map (fun c => splitParas c.text)).flatten
        = (splitParas text).filter (fun p => !p.isEmpty) ∧
    ∀ p ∈ (splitParas text).filter (fun p => !p.isEmpty),
      ∃ c ∈ chunk_text cs tc text u t, p ∈ splitParas c.text := by
  have hmain : ((chunk_text cs tc text u t).map (fun c => splitParas c.text)).flatten
      = (splitParas text).filter (fun p => !p.isEmpty) := by
    unfold chunk_text
    by_cases hte : text = []
    · rw [if_pos hte]
      subst hte
      rfl
    · rw [if_neg hte]
      have h := chunkLoop_paras cs tc u t (splitParas text) [] 0 (by simp)
        (fun p hp => ⟨H p hp, splitParas_hasNN text p hp⟩)
      rw [show glue [] = [] from rfl] at h
      rw [h]
      rfl
  refine ⟨hmain, ?_⟩
  intro p hp
  rw [← hmain] at hp
  rcases List.mem_flatten.1 hp with ⟨l, hl, hpl⟩
  rcases List.mem_map.1 hl with ⟨c, hc, rfl⟩
  exact ⟨c, hc, hpl⟩

/-- Witness for C8 amended: the document "aa\n\nbb\n\ncc" at chunk size 3
is split into the chunks "aa", "bb", "cc"; re-splitting the chunk texts
yields exactly the original paragraphs. -/
theorem C8_amended_paragraph_preservation_witness :
    ((chunk_text 3 countTokensApprox "aa\n\nbb\n\ncc".data "u" "t").map
        (fun c => splitParas c.text)).flatten
      = (splitParas "aa\n\nbb\n\ncc".data).filter (fun p => !p.isEmpty) ∧
    ∀ p ∈ (splitParas "aa\n\nbb\n\ncc".data).filter (fun p => !p.isEmpty),
      ∃ c ∈ chunk_text 3 countTokensApprox "aa\n\nbb\n\ncc".data "u" "t",
        p ∈ splitParas c.text :=
  C8_amended_paragraph_preservation 3 countTokensApprox "aa\n\nbb\n\ncc".data "u" "t"
    (by decide)

end ChatBruti
